import Mathlib

/-!
Formal model of the stochastic optimal-transport solvers in `ot/stochastic.py`
(semi-dual SAG/ASGD solvers with c-transform, and the batched dual SGD solver).

Vectors of length `n` are modelled as functions `Fin n → ℝ`; the `ns × nt`
cost matrix is `Fin ns → Fin nt → ℝ`.  The source draws random numbers from
numpy's global generator; here every random quantity (sampled source indices,
sampled batches, the normal initial draws) is an explicit input, so each
solver is a deterministic function of the cost data together with its random
stream.  Iteration counts are either explicit (`numItermax`) or given by the
length of the supplied sample sequence.
-/

namespace Stochastic

instance finNonemptyOfNeZero {n : ℕ} [NeZero n] : Nonempty (Fin n) :=
  ⟨⟨0, Nat.pos_of_ne_zero (NeZero.ne n)⟩⟩

/-- Model of `coordinate_grad_semi_dual(b, M, reg, beta, i)`:
`r = M[i,:] - beta`; `exp_beta = np.exp(-r / reg) * b`;
`khi = exp_beta / np.sum(exp_beta)`; returns `b - khi`. -/
noncomputable def coordinate_grad_semi_dual {ns nt : ℕ} (b : Fin nt → ℝ)
    (M : Fin ns → Fin nt → ℝ) (reg : ℝ) (beta : Fin nt → ℝ) (i : Fin ns) :
    Fin nt → ℝ :=
  let r : Fin nt → ℝ := fun j => M i j - beta j
  let exp_beta : Fin nt → ℝ := fun j => Real.exp (-r j / reg) * b j
  let khi : Fin nt → ℝ := fun j => exp_beta j / ∑ k, exp_beta k
  fun j => b j - khi j

/-- The normalized Gibbs weight vector `khi` computed inside
`coordinate_grad_semi_dual` (a local variable in the source). -/
noncomputable def khi {ns nt : ℕ} (b : Fin nt → ℝ)
    (M : Fin ns → Fin nt → ℝ) (reg : ℝ) (beta : Fin nt → ℝ) (i : Fin ns) :
    Fin nt → ℝ :=
  fun j => Real.exp (-(M i j - beta j) / reg) * b j /
    ∑ k, Real.exp (-(M i k - beta k) / reg) * b k

/-- Default learning rate `1. / max(a / reg)` used by both semi-dual solvers
when `lr is None`. -/
noncomputable def default_lr {ns : ℕ} [NeZero ns] (a : Fin ns → ℝ) (reg : ℝ) : ℝ :=
  1 / Finset.univ.sup' Finset.univ_nonempty fun i => a i / reg

/-- Loop state of `sag_entropic_transport`: the current dual iterate, the
per-source-row gradient table and its running sum. -/
structure SagState (ns nt : ℕ) where
  cur_beta : Fin nt → ℝ
  stored_gradient : Fin ns → Fin nt → ℝ
  sum_stored_gradient : Fin nt → ℝ

/-- Initial SAG state: all three buffers zero, as in the source
(`np.zeros(n_target)`, `np.zeros((n_source, n_target))`, `np.zeros(n_target)`). -/
def sagInit (ns nt : ℕ) : SagState ns nt :=
  ⟨fun _ => 0, fun _ _ => 0, fun _ => 0⟩

/-- One iteration of the SAG loop at sampled source index `i`:
`cur_coord_grad = a[i] * coordinate_grad_semi_dual(b, M, reg, cur_beta, i)`;
`sum_stored_gradient += cur_coord_grad - stored_gradient[i]`;
`stored_gradient[i] = cur_coord_grad`;
`cur_beta += lr * (1 / n_source) * sum_stored_gradient` (the updated sum). -/
noncomputable def sagStep {ns nt : ℕ} (a : Fin ns → ℝ) (b : Fin nt → ℝ)
    (M : Fin ns → Fin nt → ℝ) (reg lr : ℝ) (s : SagState ns nt) (i : Fin ns) :
    SagState ns nt :=
  let cur_coord_grad : Fin nt → ℝ :=
    fun j => a i * coordinate_grad_semi_dual b M reg s.cur_beta i j
  let new_sum : Fin nt → ℝ :=
    fun j => s.sum_stored_gradient j + (cur_coord_grad j - s.stored_gradient i j)
  let new_stored := Function.update s.stored_gradient i cur_coord_grad
  let new_beta : Fin nt → ℝ :=
    fun j => s.cur_beta j + lr * (1 / (ns : ℝ)) * new_sum j
  ⟨new_beta, new_stored, new_sum⟩

/-- Model of `sag_entropic_transport(a, b, M, reg, numItermax, lr)`.  The
uniformly sampled source indices are the explicit list `samples` (one entry
per iteration); `lr = None` is `Option.none`.  Returns the final `cur_beta`. -/
noncomputable def sag_entropic_transport {ns nt : ℕ} [NeZero ns]
    (a : Fin ns → ℝ) (b : Fin nt → ℝ) (M : Fin ns → Fin nt → ℝ) (reg : ℝ)
    (samples : List (Fin ns)) (lr : Option ℝ) : Fin nt → ℝ :=
  let lr0 := lr.getD (default_lr a reg)
  (samples.foldl (sagStep a b M reg lr0) (sagInit ns nt)).cur_beta

/-- The ASGD loop of `averaged_sgd_entropic_transport`, carrying the 1-indexed
iteration counter `k` and the pair `(cur_beta, ave_beta)`:
`cur_beta += (lr / np.sqrt k) * coordinate_grad_semi_dual(b, M, reg, cur_beta, i)`;
`ave_beta = (1/k) * cur_beta + (1 - 1/k) * ave_beta`. -/
noncomputable def asgdLoop {ns nt : ℕ} (b : Fin nt → ℝ)
    (M : Fin ns → Fin nt → ℝ) (reg lr : ℝ) :
    ℕ → List (Fin ns) → (Fin nt → ℝ) × (Fin nt → ℝ) → (Fin nt → ℝ) × (Fin nt → ℝ)
  | _, [], st => st
  | k, i :: rest, st =>
    let cur_coord_grad := coordinate_grad_semi_dual b M reg st.1 i
    let new_cur : Fin nt → ℝ :=
      fun j => st.1 j + (lr / Real.sqrt (k : ℝ)) * cur_coord_grad j
    let new_ave : Fin nt → ℝ :=
      fun j => (1 / (k : ℝ)) * new_cur j + (1 - 1 / (k : ℝ)) * st.2 j
    asgdLoop b M reg lr (k + 1) rest (new_cur, new_ave)

/-- Model of `averaged_sgd_entropic_transport(a, b, M, reg, numItermax, lr)`:
zero-initialized `cur_beta` and `ave_beta`, loop starting at `k = 1`, and the
returned value is the running average `ave_beta` (the second component). -/
noncomputable def averaged_sgd_entropic_transport {ns nt : ℕ} [NeZero ns]
    (a : Fin ns → ℝ) (b : Fin nt → ℝ) (M : Fin ns → Fin nt → ℝ) (reg : ℝ)
    (samples : List (Fin ns)) (lr : Option ℝ) : Fin nt → ℝ :=
  let lr0 := lr.getD (default_lr a reg)
  (asgdLoop b M reg lr0 1 samples (fun _ => 0, fun _ => 0)).2

/-- Model of `c_transform_entropic(b, M, reg, beta)`: per source row,
`r = M[i,:] - beta`; `min_r = np.min(r)`;
`alpha[i] = min_r - reg * np.log(np.sum(np.exp(-(r - min_r)/reg) * b))`. -/
noncomputable def c_transform_entropic {ns nt : ℕ} [NeZero nt]
    (b : Fin nt → ℝ) (M : Fin ns → Fin nt → ℝ) (reg : ℝ) (beta : Fin nt → ℝ) :
    Fin ns → ℝ :=
  fun i =>
    let min_r := Finset.univ.inf' Finset.univ_nonempty fun j => M i j - beta j
    min_r - reg * Real.log (∑ j, Real.exp (-((M i j - beta j) - min_r) / reg) * b j)

/-- Gibbs-kernel plan reconstruction shared by both orchestrators:
`pi = np.exp((alpha[:, None] + beta[None, :] - M) / reg) * a[:, None] * b[None, :]`. -/
noncomputable def plan_reconstruction {ns nt : ℕ} (a : Fin ns → ℝ) (b : Fin nt → ℝ)
    (M : Fin ns → Fin nt → ℝ) (reg : ℝ) (alpha : Fin ns → ℝ) (beta : Fin nt → ℝ) :
    Fin ns → Fin nt → ℝ :=
  fun i j => Real.exp ((alpha i + beta j - M i j) / reg) * a i * b j

/-- Python's `str.lower()` applied to a method name, modelled as mapping the
character-level lowercasing over the string's characters. -/
def lowerString (s : String) : String := ⟨s.data.map Char.toLower⟩

/-- Model of `solve_semi_dual_entropic(a, b, M, reg, method, numItermax, lr, log)`.
The method string is matched through `.lower()`; an unrecognized method prints a
message and returns `None`, modelled as `Option.none`.  On success the result is
the plan paired with the optional `{alpha, beta}` log. -/
noncomputable def solve_semi_dual_entropic {ns nt : ℕ} [NeZero ns] [NeZero nt]
    (a : Fin ns → ℝ) (b : Fin nt → ℝ) (M : Fin ns → Fin nt → ℝ) (reg : ℝ)
    (method : String) (samples : List (Fin ns)) (lr : Option ℝ) (log : Bool) :
    Option ((Fin ns → Fin nt → ℝ) × Option ((Fin ns → ℝ) × (Fin nt → ℝ))) :=
  if lowerString method = "sag" then
    let opt_beta := sag_entropic_transport a b M reg samples lr
    let opt_alpha := c_transform_entropic b M reg opt_beta
    let pi := plan_reconstruction a b M reg opt_alpha opt_beta
    if log then Option.some (pi, Option.some (opt_alpha, opt_beta))
    else Option.some (pi, Option.none)
  else if lowerString method = "asgd" then
    let opt_beta := averaged_sgd_entropic_transport a b M reg samples lr
    let opt_alpha := c_transform_entropic b M reg opt_beta
    let pi := plan_reconstruction a b M reg opt_alpha opt_beta
    if log then Option.some (pi, Option.some (opt_alpha, opt_beta))
    else Option.some (pi, Option.none)
  else
    Option.none

/-- Model of `batch_grad_dual_alpha(M, reg, alpha, beta, batch_size, batch_alpha,
batch_beta)`: starts from the constant vector `batch_size` and, looping over the
entries of `batch_beta` in order, subtracts
`np.exp((alpha[batch_alpha] + beta[j] - M[batch_alpha, j]) / reg)` element-wise. -/
noncomputable def batch_grad_dual_alpha {ns nt : ℕ} (M : Fin ns → Fin nt → ℝ)
    (reg : ℝ) (alpha : Fin ns → ℝ) (beta : Fin nt → ℝ) (batch_size : ℕ)
    (batch_alpha : Fin batch_size → Fin ns) (batch_beta : Fin batch_size → Fin nt) :
    Fin batch_size → ℝ :=
  (List.ofFn batch_beta).foldl
    (fun grad j => fun p =>
      grad p - Real.exp ((alpha (batch_alpha p) + beta j - M (batch_alpha p) j) / reg))
    (fun _ => (batch_size : ℝ))

/-- Model of `batch_grad_dual_beta`, the mirror computation: loops over the
entries of `batch_alpha`, subtracting
`np.exp((alpha[i] + beta[batch_beta] - M[i, batch_beta]) / reg)` element-wise. -/
noncomputable def batch_grad_dual_beta {ns nt : ℕ} (M : Fin ns → Fin nt → ℝ)
    (reg : ℝ) (alpha : Fin ns → ℝ) (beta : Fin nt → ℝ) (batch_size : ℕ)
    (batch_alpha : Fin batch_size → Fin ns) (batch_beta : Fin batch_size → Fin nt) :
    Fin batch_size → ℝ :=
  (List.ofFn batch_alpha).foldl
    (fun grad i => fun p =>
      grad p - Real.exp ((alpha i + beta (batch_beta p) - M i (batch_beta p)) / reg))
    (fun _ => (batch_size : ℝ))

/-- Numpy fancy-indexed in-place addition `v[idx] += delta`: the gathered values
`v[idx] + delta` are computed from the original `v`, then scattered back in
index order (a later duplicate position overwrites an earlier one). -/
noncomputable def scatterAdd {n bs : ℕ} (v : Fin n → ℝ) (idx : Fin bs → Fin n)
    (delta : Fin bs → ℝ) : Fin n → ℝ :=
  (List.finRange bs).foldl
    (fun w p => Function.update w (idx p) (v (idx p) + delta p)) v

/-- One iteration of `sgd_entropic_regularization` at 0-indexed `cur_iter`, with
step size `lr / np.sqrt(cur_iter + 1)` and this iteration's sampled batches.
When `alternate` is true the alpha update is applied before the beta gradient is
computed; when false both gradients use the pre-update state. -/
noncomputable def sgdStep {ns nt : ℕ} (M : Fin ns → Fin nt → ℝ) (reg : ℝ)
    (batch_size : ℕ) (lr : ℝ) (alternate : Bool)
    (batches : ℕ → (Fin batch_size → Fin ns) × (Fin batch_size → Fin nt))
    (st : (Fin ns → ℝ) × (Fin nt → ℝ)) (cur_iter : ℕ) :
    (Fin ns → ℝ) × (Fin nt → ℝ) :=
  let k := Real.sqrt ((cur_iter : ℝ) + 1)
  let batch_alpha := (batches cur_iter).1
  let batch_beta := (batches cur_iter).2
  if alternate then
    let grad_F_alpha := batch_grad_dual_alpha M reg st.1 st.2 batch_size batch_alpha batch_beta
    let new_alpha := scatterAdd st.1 batch_alpha fun p => lr / k * grad_F_alpha p
    let grad_F_beta := batch_grad_dual_beta M reg new_alpha st.2 batch_size batch_alpha batch_beta
    let new_beta := scatterAdd st.2 batch_beta fun p => lr / k * grad_F_beta p
    (new_alpha, new_beta)
  else
    let grad_F_alpha := batch_grad_dual_alpha M reg st.1 st.2 batch_size batch_alpha batch_beta
    let grad_F_beta := batch_grad_dual_beta M reg st.1 st.2 batch_size batch_alpha batch_beta
    (scatterAdd st.1 batch_alpha fun p => lr / k * grad_F_alpha p,
     scatterAdd st.2 batch_beta fun p => lr / k * grad_F_beta p)

/-- Model of `sgd_entropic_regularization(M, reg, batch_size, numItermax, lr,
alternate)`.  The standard-normal initial draws and the without-replacement
batch samples come from numpy's global generator in the source; here they are
the explicit inputs `init_alpha`, `init_beta` and the stream `batches`.
Returns the final `(cur_alpha, cur_beta)` after exactly `numItermax` steps. -/
noncomputable def sgd_entropic_regularization {ns nt : ℕ} (M : Fin ns → Fin nt → ℝ)
    (reg : ℝ) (batch_size numItermax : ℕ) (lr : ℝ) (alternate : Bool)
    (init_alpha : Fin ns → ℝ) (init_beta : Fin nt → ℝ)
    (batches : ℕ → (Fin batch_size → Fin ns) × (Fin batch_size → Fin nt)) :
    (Fin ns → ℝ) × (Fin nt → ℝ) :=
  (List.range numItermax).foldl (sgdStep M reg batch_size lr alternate batches)
    (init_alpha, init_beta)

/-- Model of `solve_dual_entropic(a, b, M, reg, batch_size, numItermax, lr, log)`:
runs the dual SGD solver (with its default `alternate=True`), reconstructs the
plan from the returned dual pair directly (no c-transform), and pairs it with
the optional `{alpha, beta}` log. -/
noncomputable def solve_dual_entropic {ns nt : ℕ} (a : Fin ns → ℝ) (b : Fin nt → ℝ)
    (M : Fin ns → Fin nt → ℝ) (reg : ℝ) (batch_size numItermax : ℕ) (lr : ℝ)
    (init_alpha : Fin ns → ℝ) (init_beta : Fin nt → ℝ)
    (batches : ℕ → (Fin batch_size → Fin ns) × (Fin batch_size → Fin nt))
    (log : Bool) :
    (Fin ns → Fin nt → ℝ) × Option ((Fin ns → ℝ) × (Fin nt → ℝ)) :=
  let opt := sgd_entropic_regularization M reg batch_size numItermax lr true
    init_alpha init_beta batches
  let pi := plan_reconstruction a b M reg opt.1 opt.2
  if log then (pi, Option.some (opt.1, opt.2)) else (pi, Option.none)

/-! ## Helper lemmas -/

lemma foldl_invariant {α σ : Type*} (P : σ → Prop) (f : σ → α → σ)
    (hstep : ∀ s x, P s → P (f s x)) :
    ∀ (l : List α) (s : σ), P s → P (l.foldl f s)
  | [], _, hs => hs
  | x :: l, s, hs => foldl_invariant P f hstep l (f s x) (hstep s x hs)

lemma khi_nonneg {ns nt : ℕ} (b : Fin nt → ℝ) (M : Fin ns → Fin nt → ℝ)
    (reg : ℝ) (beta : Fin nt → ℝ) (i : Fin ns) (hb : ∀ j, 0 ≤ b j)
    (hS : 0 < ∑ k, Real.exp (-(M i k - beta k) / reg) * b k) :
    ∀ j, 0 ≤ khi b M reg beta i j := fun j =>
  div_nonneg (mul_nonneg (Real.exp_pos _).le (hb j)) hS.le

lemma khi_sum_one {ns nt : ℕ} (b : Fin nt → ℝ) (M : Fin ns → Fin nt → ℝ)
    (reg : ℝ) (beta : Fin nt → ℝ) (i : Fin ns)
    (hS : 0 < ∑ k, Real.exp (-(M i k - beta k) / reg) * b k) :
    ∑ j, khi b M reg beta i j = 1 := by
  unfold khi
  rw [← Finset.sum_div]
  exact div_self (ne_of_gt hS)

lemma normalizer_pos {ns nt : ℕ} (b : Fin nt → ℝ) (M : Fin ns → Fin nt → ℝ)
    (reg : ℝ) (beta : Fin nt → ℝ) (i : Fin ns) (hb : ∀ j, 0 ≤ b j)
    (hb1 : ∑ j, b j = 1) :
    0 < ∑ k, Real.exp (-(M i k - beta k) / reg) * b k := by
  obtain ⟨j, hj⟩ : ∃ j, b j ≠ 0 := by
    by_contra hno
    push_neg at hno
    simp [hno] at hb1
  refine Finset.sum_pos' (fun k _ => mul_nonneg (Real.exp_pos _).le (hb k)) ⟨j, Finset.mem_univ j, ?_⟩
  exact mul_pos (Real.exp_pos _) (lt_of_le_of_ne (hb j) (Ne.symm hj))

lemma coordinate_grad_sum_zero {ns nt : ℕ} (b : Fin nt → ℝ)
    (M : Fin ns → Fin nt → ℝ) (reg : ℝ) (beta : Fin nt → ℝ) (i : Fin ns)
    (hb : ∀ j, 0 ≤ b j) (hb1 : ∑ j, b j = 1) :
    ∑ j, coordinate_grad_semi_dual b M reg beta i j = 0 := by
  have hS := normalizer_pos b M reg beta i hb hb1
  calc ∑ j, coordinate_grad_semi_dual b M reg beta i j
      = ∑ j, (b j - khi b M reg beta i j) := Finset.sum_congr rfl fun j _ => rfl
    _ = ∑ j, b j - ∑ j, khi b M reg beta i j := Finset.sum_sub_distrib
    _ = 0 := by rw [hb1, khi_sum_one b M reg beta i hS, sub_self]

lemma sum_update_row {ns nt : ℕ} (f : Fin ns → Fin nt → ℝ) (i : Fin ns)
    (g : Fin nt → ℝ) (j : Fin nt) :
    ∑ i', Function.update f i g i' j = ∑ i', f i' j - f i j + g j := by
  have key : ∀ h : Fin ns → Fin nt → ℝ,
      ∑ i', h i' j = ∑ i' ∈ Finset.univ.erase i, h i' j + h i j :=
    fun h => (Finset.sum_erase_add _ _ (Finset.mem_univ i)).symm
  rw [key (Function.update f i g), key f]
  have he : ∑ i' ∈ Finset.univ.erase i, Function.update f i g i' j
      = ∑ i' ∈ Finset.univ.erase i, f i' j := by
    refine Finset.sum_congr rfl fun x hx => ?_
    have hxi : x ≠ i := Finset.ne_of_mem_erase hx
    simp [Function.update_apply, hxi]
  rw [he]
  have hg : Function.update f i g i j = g j := by simp
  rw [hg]
  ring

/-! ## Claim theorems -/

/-- C1: `coordinate_grad_semi_dual` returns `b - khi` where `khi` is the
normalized Gibbs weight vector `exp(-(M[i,:] - beta)/reg) * b / sum`; the output
has length `nt` (the index type of `b`), and when `b` is non-negative with a
positive normalizer, `khi` is a probability vector: non-negative and summing
to 1. -/
theorem coordinate_grad_semi_dual_spec {ns nt : ℕ} (b : Fin nt → ℝ)
    (M : Fin ns → Fin nt → ℝ) (reg : ℝ) (beta : Fin nt → ℝ) (i : Fin ns)
    (hb : ∀ j, 0 ≤ b j)
    (hS : 0 < ∑ k, Real.exp (-(M i k - beta k) / reg) * b k) :
    coordinate_grad_semi_dual b M reg beta i = (fun j => b j - khi b M reg beta i j)
    ∧ (∀ j, 0 ≤ khi b M reg beta i j)
    ∧ ∑ j, khi b M reg beta i j = 1 :=
  ⟨rfl, khi_nonneg b M reg beta i hb hS, khi_sum_one b M reg beta i hS⟩

/-- Witness for C1 at `ns = nt = 1`, `b = [1]`, `M = 0`, `beta = 0`, `reg = 1`. -/
theorem coordinate_grad_semi_dual_spec_witness :
    (∀ j : Fin 1, (0:ℝ) ≤ (fun _ : Fin 1 => (1:ℝ)) j)
    ∧ (0 < ∑ k : Fin 1,
        Real.exp (-((fun (_ : Fin 1) (_ : Fin 1) => (0:ℝ)) 0 k - (fun _ : Fin 1 => (0:ℝ)) k) / 1)
          * (fun _ : Fin 1 => (1:ℝ)) k)
    ∧ ∑ j : Fin 1, khi (fun _ : Fin 1 => (1:ℝ)) (fun (_ : Fin 1) (_ : Fin 1) => (0:ℝ)) 1
        (fun _ => 0) (0 : Fin 1) j = 1 := by
  have hb : ∀ j : Fin 1, (0:ℝ) ≤ (fun _ : Fin 1 => (1:ℝ)) j := fun _ => zero_le_one
  have hS : (0:ℝ) < ∑ k : Fin 1,
      Real.exp (-((fun (_ : Fin 1) (_ : Fin 1) => (0:ℝ)) 0 k - (fun _ : Fin 1 => (0:ℝ)) k) / 1)
        * (fun _ : Fin 1 => (1:ℝ)) k := by
    simp
  exact ⟨hb, hS,
    (coordinate_grad_semi_dual_spec (fun _ : Fin 1 => (1:ℝ)) (fun _ _ => 0) 1
      (fun _ => 0) 0 hb hS).2.2⟩

/-- C2: in the SAG loop, after every iteration (equivalently, after folding any
sample sequence from the zero-initialized state), `sum_stored_gradient` equals
the row-wise sum of all rows of `stored_gradient`. -/
theorem sag_gradient_table_invariant {ns nt : ℕ} (a : Fin ns → ℝ)
    (b : Fin nt → ℝ) (M : Fin ns → Fin nt → ℝ) (reg lr : ℝ)
    (samples : List (Fin ns)) :
    ∀ j, (samples.foldl (sagStep a b M reg lr) (sagInit ns nt)).sum_stored_gradient j
      = ∑ i, (samples.foldl (sagStep a b M reg lr) (sagInit ns nt)).stored_gradient i j := by
  refine foldl_invariant
    (fun s : SagState ns nt => ∀ j, s.sum_stored_gradient j = ∑ i, s.stored_gradient i j)
    (sagStep a b M reg lr) ?_ samples (sagInit ns nt) ?_
  · intro s i hs j
    show s.sum_stored_gradient j
        + ((fun j => a i * coordinate_grad_semi_dual b M reg s.cur_beta i j) j
            - s.stored_gradient i j)
      = ∑ i', Function.update s.stored_gradient i
          (fun j => a i * coordinate_grad_semi_dual b M reg s.cur_beta i j) i' j
    rw [sum_update_row, ← hs j]
    ring
  · intro j
    simp [sagInit]

/-- C3: `sag_entropic_transport` with no learning rate uses `1 / max(a / reg)`;
from the zero-initialized state it folds the SAG step over the sampled indices,
where each step computes `cur_coord_grad = a[i] * coordinate_grad_semi_dual`,
replaces the stored contribution for `i` in the running sum, updates
`beta += lr * (1/ns) * sum_stored_gradient`, and the function returns the final
`cur_beta` (the last iterate). -/
theorem sag_entropic_transport_spec {ns nt : ℕ} [NeZero ns] (a : Fin ns → ℝ)
    (b : Fin nt → ℝ) (M : Fin ns → Fin nt → ℝ) (reg : ℝ)
    (samples : List (Fin ns)) :
    sag_entropic_transport a b M reg samples Option.none
      = sag_entropic_transport a b M reg samples
          (Option.some (1 / Finset.univ.sup' Finset.univ_nonempty fun i => a i / reg))
    ∧ (∀ lr, sag_entropic_transport a b M reg samples (Option.some lr)
        = (samples.foldl (sagStep a b M reg lr) (sagInit ns nt)).cur_beta)
    ∧ (∀ (lr : ℝ) (s : SagState ns nt) (i : Fin ns),
        sagStep a b M reg lr s i
          = ⟨fun j => s.cur_beta j + lr * (1 / (ns : ℝ))
                * (s.sum_stored_gradient j
                    + (a i * coordinate_grad_semi_dual b M reg s.cur_beta i j
                        - s.stored_gradient i j)),
             Function.update s.stored_gradient i
               (fun j => a i * coordinate_grad_semi_dual b M reg s.cur_beta i j),
             fun j => s.sum_stored_gradient j
                + (a i * coordinate_grad_semi_dual b M reg s.cur_beta i j
                    - s.stored_gradient i j)⟩) :=
  ⟨rfl, fun _ => rfl, fun _ _ _ => rfl⟩

/-- Witness for C3 at `ns = nt = 1`, `a = b = [1]`, `M = 0`, `reg = 1`, no
iterations. -/
theorem sag_entropic_transport_spec_witness :
    sag_entropic_transport (fun _ : Fin 1 => (1:ℝ)) (fun _ : Fin 1 => (1:ℝ))
        (fun _ _ => 0) 1 [] Option.none
      = sag_entropic_transport (fun _ : Fin 1 => (1:ℝ)) (fun _ : Fin 1 => (1:ℝ))
          (fun _ _ => 0) 1 []
          (Option.some (1 / Finset.univ.sup' Finset.univ_nonempty
            fun _ : Fin 1 => (1:ℝ) / 1)) :=
  (sag_entropic_transport_spec _ _ _ _ _).1

/-- C4: `averaged_sgd_entropic_transport` starts from zero `cur_beta` and
`ave_beta`, and at 1-indexed iteration `k` adds `(lr / √k)` times the
(unweighted) coordinate gradient to `cur_beta`, then sets
`ave_beta = (1/k) * cur_beta + (1 - 1/k) * ave_beta`; the function returns the
running average `ave_beta` (second component), not the last iterate. -/
theorem averaged_sgd_entropic_transport_spec {ns nt : ℕ} [NeZero ns]
    (a : Fin ns → ℝ) (b : Fin nt → ℝ) (M : Fin ns → Fin nt → ℝ) (reg : ℝ)
    (samples : List (Fin ns)) :
    (∀ lr, averaged_sgd_entropic_transport a b M reg samples (Option.some lr)
        = (asgdLoop b M reg lr 1 samples (fun _ => 0, fun _ => 0)).2)
    ∧ (∀ (lr : ℝ) (k : ℕ) (st : (Fin nt → ℝ) × (Fin nt → ℝ)) (i : Fin ns)
          (rest : List (Fin ns)),
        asgdLoop b M reg lr k (i :: rest) st
          = asgdLoop b M reg lr (k + 1) rest
              (fun j => st.1 j + lr / Real.sqrt (k : ℝ)
                  * coordinate_grad_semi_dual b M reg st.1 i j,
               fun j => 1 / (k : ℝ)
                    * (st.1 j + lr / Real.sqrt (k : ℝ)
                        * coordinate_grad_semi_dual b M reg st.1 i j)
                  + (1 - 1 / (k : ℝ)) * st.2 j))
    ∧ (∀ (lr : ℝ) (k : ℕ) (st : (Fin nt → ℝ) × (Fin nt → ℝ)),
        asgdLoop b M reg lr k [] st = st) :=
  ⟨fun _ => rfl, fun _ _ _ _ _ => rfl, fun _ _ _ => rfl⟩

/-- Witness for C4 at `ns = nt = 1`, `lr = 1`, no iterations. -/
theorem averaged_sgd_entropic_transport_spec_witness :
    averaged_sgd_entropic_transport (fun _ : Fin 1 => (1:ℝ)) (fun _ : Fin 1 => (1:ℝ))
        (fun _ _ => 0) 1 [] (Option.some 1)
      = (asgdLoop (fun _ : Fin 1 => (1:ℝ)) (fun (_ : Fin 1) (_ : Fin 1) => (0:ℝ))
          1 1 1 ([] : List (Fin 1)) (fun _ => 0, fun _ => 0)).2 :=
  (averaged_sgd_entropic_transport_spec _ _ _ _ _).1 1

lemma shifted_logsumexp {nt : ℕ} (r : Fin nt → ℝ) (b : Fin nt → ℝ) (reg m : ℝ)
    (hreg : 0 < reg) (hS : 0 < ∑ j, Real.exp (-r j / reg) * b j) :
    m - reg * Real.log (∑ j, Real.exp (-(r j - m) / reg) * b j)
      = -(reg * Real.log (∑ j, Real.exp (-r j / reg) * b j)) := by
  have hshift : ∑ j, Real.exp (-(r j - m) / reg) * b j
      = Real.exp (m / reg) * ∑ j, Real.exp (-r j / reg) * b j := by
    rw [Finset.mul_sum]
    refine Finset.sum_congr rfl fun j _ => ?_
    rw [← mul_assoc, ← Real.exp_add]
    have harg : -(r j - m) / reg = m / reg + -r j / reg := by ring
    rw [harg]
  rw [hshift, Real.log_mul (Real.exp_ne_zero _) (ne_of_gt hS), Real.log_exp,
    mul_add]
  have hm : reg * (m / reg) = m := by
    rw [mul_comm]
    exact div_mul_cancel₀ m (ne_of_gt hreg)
  rw [hm]
  ring

/-- C5: `c_transform_entropic` computes, per source index, the min-shifted
log-sum-exp `min_r - reg * log(sum(exp(-(r - min_r)/reg) * b))`, and in exact
real arithmetic (for positive `reg`, non-negative `b` with positive weighted
sums) this equals the unshifted `-reg * log(sum(exp(-r/reg) * b))`. -/
theorem c_transform_entropic_spec {ns nt : ℕ} [NeZero nt] (b : Fin nt → ℝ)
    (M : Fin ns → Fin nt → ℝ) (reg : ℝ) (beta : Fin nt → ℝ)
    (hreg : 0 < reg) (hb : ∀ j, 0 ≤ b j)
    (hS : ∀ i : Fin ns, 0 < ∑ j, Real.exp (-(M i j - beta j) / reg) * b j) :
    ∀ i, (c_transform_entropic b M reg beta i
        = (Finset.univ.inf' Finset.univ_nonempty fun j => M i j - beta j)
          - reg * Real.log (∑ j, Real.exp (-((M i j - beta j)
              - Finset.univ.inf' Finset.univ_nonempty fun j => M i j - beta j) / reg) * b j))
      ∧ c_transform_entropic b M reg beta i
        = -(reg * Real.log (∑ j, Real.exp (-(M i j - beta j) / reg) * b j)) := by
  intro i
  refine ⟨rfl, ?_⟩
  exact shifted_logsumexp (fun j => M i j - beta j) b reg
    (Finset.univ.inf' Finset.univ_nonempty fun j => M i j - beta j) hreg (hS i)

/-- Witness for C5 at `ns = nt = 1`, `b = [1]`, `M = 0`, `beta = 0`, `reg = 1`. -/
theorem c_transform_entropic_spec_witness :
    ((0:ℝ) < 1)
    ∧ c_transform_entropic (fun _ : Fin 1 => (1:ℝ))
        (fun (_ : Fin 1) (_ : Fin 1) => (0:ℝ)) 1 (fun _ => 0) (0 : Fin 1)
      = -(1 * Real.log (∑ j : Fin 1,
          Real.exp (-((fun (_ : Fin 1) (_ : Fin 1) => (0:ℝ)) (0 : Fin 1) j
            - (fun _ : Fin 1 => (0:ℝ)) j) / 1) * (fun _ : Fin 1 => (1:ℝ)) j)) := by
  have hreg : (0:ℝ) < 1 := one_pos
  have hb : ∀ j : Fin 1, (0:ℝ) ≤ (fun _ : Fin 1 => (1:ℝ)) j := fun _ => zero_le_one
  have hS : ∀ i : Fin 1, (0:ℝ) < ∑ j : Fin 1,
      Real.exp (-((fun (_ : Fin 1) (_ : Fin 1) => (0:ℝ)) i j
        - (fun _ : Fin 1 => (0:ℝ)) j) / 1) * (fun _ : Fin 1 => (1:ℝ)) j := by
    intro i
    simp
  exact ⟨hreg, (c_transform_entropic_spec _ _ _ _ hreg hb hS (0 : Fin 1)).2⟩

/-- C6: the semi-dual orchestrator matches the method string through
`.lower()`: any casing of "sag" runs the SAG solver and any casing of "asgd"
runs the ASGD solver; every other method string yields the empty result
`Option.none` regardless of the log flag — never a `(plan, log)` pair. -/
theorem solve_semi_dual_entropic_dispatch {ns nt : ℕ} [NeZero ns] [NeZero nt]
    (a : Fin ns → ℝ) (b : Fin nt → ℝ) (M : Fin ns → Fin nt → ℝ) (reg : ℝ)
    (samples : List (Fin ns)) (lr : Option ℝ) (log : Bool) (method : String) :
    (lowerString method = "sag" →
      solve_semi_dual_entropic a b M reg method samples lr log
        = Option.some (plan_reconstruction a b M reg
              (c_transform_entropic b M reg (sag_entropic_transport a b M reg samples lr))
              (sag_entropic_transport a b M reg samples lr),
            if log then
              Option.some
                (c_transform_entropic b M reg (sag_entropic_transport a b M reg samples lr),
                 sag_entropic_transport a b M reg samples lr)
            else Option.none))
    ∧ (lowerString method = "asgd" →
      solve_semi_dual_entropic a b M reg method samples lr log
        = Option.some (plan_reconstruction a b M reg
              (c_transform_entropic b M reg (averaged_sgd_entropic_transport a b M reg samples lr))
              (averaged_sgd_entropic_transport a b M reg samples lr),
            if log then
              Option.some
                (c_transform_entropic b M reg (averaged_sgd_entropic_transport a b M reg samples lr),
                 averaged_sgd_entropic_transport a b M reg samples lr)
            else Option.none))
    ∧ (lowerString method ≠ "sag" → lowerString method ≠ "asgd" →
        solve_semi_dual_entropic a b M reg method samples lr log = Option.none) := by
  refine ⟨fun h => ?_, fun h => ?_, fun h1 h2 => ?_⟩
  · simp only [solve_semi_dual_entropic, h, if_pos]
    cases log <;> rfl
  · have hsag : lowerString method ≠ "sag" := by
      rw [h]
      decide
    simp only [solve_semi_dual_entropic, h, hsag, if_neg, if_pos, if_false, reduceIte]
    cases log <;> rfl
  · simp only [solve_semi_dual_entropic, h1, h2, if_neg, reduceIte]

/-- Witness for C6: the unrecognized method "newton" yields `Option.none` even
with the log flag set. -/
theorem solve_semi_dual_entropic_dispatch_witness :
    (lowerString "newton" ≠ "sag")
    ∧ (lowerString "newton" ≠ "asgd")
    ∧ solve_semi_dual_entropic (fun _ : Fin 1 => (1:ℝ)) (fun _ : Fin 1 => (1:ℝ))
        (fun _ _ => 0) 1 "newton" [] Option.none true = Option.none := by
  have h1 : lowerString "newton" ≠ "sag" := by decide
  have h2 : lowerString "newton" ≠ "asgd" := by decide
  exact ⟨h1, h2,
    (solve_semi_dual_entropic_dispatch (fun _ : Fin 1 => (1:ℝ)) (fun _ : Fin 1 => (1:ℝ))
      (fun _ _ => 0) 1 [] Option.none true "newton").2.2 h1 h2⟩

lemma foldl_sub_apply {β γ : Type*} (c : β → γ → ℝ) :
    ∀ (l : List β) (g : γ → ℝ) (p : γ),
      (l.foldl (fun grad j => fun q => grad q - c j q) g) p
        = g p - (l.map fun j => c j p).sum
  | [], g, p => by simp
  | j :: l, g, p => by
    rw [List.foldl_cons, foldl_sub_apply c l _ p, List.map_cons, List.sum_cons]
    ring

/-- C7: the alpha batch gradient's `p`-th entry is `batch_size` minus the sum
over the sampled target indices of `exp((alpha[batch_alpha[p]] + beta[j]
- M[batch_alpha[p], j]) / reg)`, and the beta variant is the mirror sum over
the sampled source indices. -/
theorem batch_grad_dual_spec {ns nt : ℕ} (M : Fin ns → Fin nt → ℝ) (reg : ℝ)
    (alpha : Fin ns → ℝ) (beta : Fin nt → ℝ) (batch_size : ℕ)
    (batch_alpha : Fin batch_size → Fin ns) (batch_beta : Fin batch_size → Fin nt) :
    (∀ p, batch_grad_dual_alpha M reg alpha beta batch_size batch_alpha batch_beta p
        = (batch_size : ℝ) - ∑ q, Real.exp ((alpha (batch_alpha p) + beta (batch_beta q)
            - M (batch_alpha p) (batch_beta q)) / reg))
    ∧ (∀ p, batch_grad_dual_beta M reg alpha beta batch_size batch_alpha batch_beta p
        = (batch_size : ℝ) - ∑ q, Real.exp ((alpha (batch_alpha q) + beta (batch_beta p)
            - M (batch_alpha q) (batch_beta p)) / reg)) := by
  constructor
  · intro p
    have h := foldl_sub_apply
      (fun (j : Fin nt) (q : Fin batch_size) =>
        Real.exp ((alpha (batch_alpha q) + beta j - M (batch_alpha q) j) / reg))
      (List.ofFn batch_beta) (fun _ => (batch_size : ℝ)) p
    calc batch_grad_dual_alpha M reg alpha beta batch_size batch_alpha batch_beta p
        = (batch_size : ℝ) - ((List.ofFn batch_beta).map fun j =>
            Real.exp ((alpha (batch_alpha p) + beta j - M (batch_alpha p) j) / reg)).sum := h
      _ = (batch_size : ℝ) - ∑ q, Real.exp ((alpha (batch_alpha p) + beta (batch_beta q)
            - M (batch_alpha p) (batch_beta q)) / reg) := by
          rw [List.map_ofFn, List.sum_ofFn]
          simp [Function.comp]
  · intro p
    have h := foldl_sub_apply
      (fun (i : Fin ns) (q : Fin batch_size) =>
        Real.exp ((alpha i + beta (batch_beta q) - M i (batch_beta q)) / reg))
      (List.ofFn batch_alpha) (fun _ => (batch_size : ℝ)) p
    calc batch_grad_dual_beta M reg alpha beta batch_size batch_alpha batch_beta p
        = (batch_size : ℝ) - ((List.ofFn batch_alpha).map fun i =>
            Real.exp ((alpha i + beta (batch_beta p) - M i (batch_beta p)) / reg)).sum := h
      _ = (batch_size : ℝ) - ∑ q, Real.exp ((alpha (batch_alpha q) + beta (batch_beta p)
            - M (batch_alpha q) (batch_beta p)) / reg) := by
          rw [List.map_ofFn, List.sum_ofFn]
          simp [Function.comp]

/-- C8: the dual SGD solver starts from the supplied (standard-normal) initial
draws, runs exactly `numItermax` iterations of the step function with step size
`lr / √(cur_iter + 1)` and that iteration's sampled batches, and returns the
final `(alpha, beta)` pair; when `alternate` is true the beta gradient is
computed at the already-updated alpha, and when false both gradients are
computed at the pre-update state. -/
theorem sgd_entropic_regularization_spec {ns nt : ℕ} (M : Fin ns → Fin nt → ℝ)
    (reg : ℝ) (batch_size : ℕ) (lr : ℝ) (alternate : Bool)
    (init_alpha : Fin ns → ℝ) (init_beta : Fin nt → ℝ)
    (batches : ℕ → (Fin batch_size → Fin ns) × (Fin batch_size → Fin nt)) :
    sgd_entropic_regularization M reg batch_size 0 lr alternate init_alpha init_beta batches
      = (init_alpha, init_beta)
    ∧ (∀ n, sgd_entropic_regularization M reg batch_size (n + 1) lr alternate
            init_alpha init_beta batches
        = sgdStep M reg batch_size lr alternate batches
            (sgd_entropic_regularization M reg batch_size n lr alternate
              init_alpha init_beta batches) n)
    ∧ (∀ (st : (Fin ns → ℝ) × (Fin nt → ℝ)) (t : ℕ),
        sgdStep M reg batch_size lr true batches st t
          = (scatterAdd st.1 (batches t).1 fun p =>
                lr / Real.sqrt ((t : ℝ) + 1)
                  * batch_grad_dual_alpha M reg st.1 st.2 batch_size
                      (batches t).1 (batches t).2 p,
             scatterAdd st.2 (batches t).2 fun p =>
                lr / Real.sqrt ((t : ℝ) + 1)
                  * batch_grad_dual_beta M reg
                      (scatterAdd st.1 (batches t).1 fun q =>
                        lr / Real.sqrt ((t : ℝ) + 1)
                          * batch_grad_dual_alpha M reg st.1 st.2 batch_size
                              (batches t).1 (batches t).2 q)
                      st.2 batch_size (batches t).1 (batches t).2 p))
    ∧ (∀ (st : (Fin ns → ℝ) × (Fin nt → ℝ)) (t : ℕ),
        sgdStep M reg batch_size lr false batches st t
          = (scatterAdd st.1 (batches t).1 fun p =>
                lr / Real.sqrt ((t : ℝ) + 1)
                  * batch_grad_dual_alpha M reg st.1 st.2 batch_size
                      (batches t).1 (batches t).2 p,
             scatterAdd st.2 (batches t).2 fun p =>
                lr / Real.sqrt ((t : ℝ) + 1)
                  * batch_grad_dual_beta M reg st.1 st.2 batch_size
                      (batches t).1 (batches t).2 p)) := by
  refine ⟨rfl, fun n => ?_, fun st t => rfl, fun st t => rfl⟩
  unfold sgd_entropic_regularization
  rw [List.range_succ, List.foldl_append, List.foldl_cons, List.foldl_nil]

/-- C9: both orchestrators reconstruct the plan entrywise by the Gibbs formula
`exp((alpha[i] + beta[j] - M[i,j]) / reg) * a[i] * b[j]`; the semi-dual
orchestrator applies the c-transform to the solver's beta to get alpha, the
dual orchestrator uses the solver's `(alpha, beta)` directly, and in either
case the log flag makes the call also return the `{alpha, beta}` mapping. -/
theorem orchestrators_plan_reconstruction {ns nt : ℕ} [NeZero ns] [NeZero nt]
    (a : Fin ns → ℝ) (b : Fin nt → ℝ) (M : Fin ns → Fin nt → ℝ) (reg : ℝ)
    (samples : List (Fin ns)) (lr : Option ℝ) (log : Bool) (method : String)
    (batch_size numItermax : ℕ) (lr2 : ℝ)
    (init_alpha : Fin ns → ℝ) (init_beta : Fin nt → ℝ)
    (batches : ℕ → (Fin batch_size → Fin ns) × (Fin batch_size → Fin nt)) :
    (∀ alpha beta i j, plan_reconstruction a b M reg alpha beta i j
        = Real.exp ((alpha i + beta j - M i j) / reg) * a i * b j)
    ∧ (lowerString method = "sag" →
        solve_semi_dual_entropic a b M reg method samples lr log
          = Option.some (plan_reconstruction a b M reg
                (c_transform_entropic b M reg (sag_entropic_transport a b M reg samples lr))
                (sag_entropic_transport a b M reg samples lr),
              if log then
                Option.some
                  (c_transform_entropic b M reg (sag_entropic_transport a b M reg samples lr),
                   sag_entropic_transport a b M reg samples lr)
              else Option.none))
    ∧ (lowerString method = "asgd" →
        solve_semi_dual_entropic a b M reg method samples lr log
          = Option.some (plan_reconstruction a b M reg
                (c_transform_entropic b M reg
                  (averaged_sgd_entropic_transport a b M reg samples lr))
                (averaged_sgd_entropic_transport a b M reg samples lr),
              if log then
                Option.some
                  (c_transform_entropic b M reg
                    (averaged_sgd_entropic_transport a b M reg samples lr),
                   averaged_sgd_entropic_transport a b M reg samples lr)
              else Option.none))
    ∧ solve_dual_entropic a b M reg batch_size numItermax lr2
          init_alpha init_beta batches log
        = (plan_reconstruction a b M reg
            (sgd_entropic_regularization M reg batch_size numItermax lr2 true
              init_alpha init_beta batches).1
            (sgd_entropic_regularization M reg batch_size numItermax lr2 true
              init_alpha init_beta batches).2,
           if log then
             Option.some
               ((sgd_entropic_regularization M reg batch_size numItermax lr2 true
                  init_alpha init_beta batches).1,
                (sgd_entropic_regularization M reg batch_size numItermax lr2 true
                  init_alpha init_beta batches).2)
           else Option.none) := by
  refine ⟨fun alpha beta i j => rfl, fun h => ?_, fun h => ?_, ?_⟩
  · simp only [solve_semi_dual_entropic, h, if_pos]
    cases log <;> rfl
  · have hsag : lowerString method ≠ "sag" := by
      rw [h]
      decide
    simp only [solve_semi_dual_entropic, h, hsag, reduceIte]
    cases log <;> rfl
  · unfold solve_dual_entropic
    cases log <;> rfl

/-- Witness for C9: the dual orchestrator at `ns = nt = 1`, zero iterations,
with the log flag set. -/
theorem orchestrators_plan_reconstruction_witness :
    solve_dual_entropic (fun _ : Fin 1 => (1:ℝ)) (fun _ : Fin 1 => (1:ℝ))
        (fun _ _ => 0) 1 1 0 1 (fun _ => 0) (fun _ => 0)
        (fun _ => (id, id)) true
      = (plan_reconstruction (fun _ : Fin 1 => (1:ℝ)) (fun _ : Fin 1 => (1:ℝ))
          (fun _ _ => 0) 1
          (sgd_entropic_regularization (fun (_ : Fin 1) (_ : Fin 1) => (0:ℝ)) 1 1 0 1 true
            (fun _ => 0) (fun _ => 0) (fun _ => (id, id))).1
          (sgd_entropic_regularization (fun (_ : Fin 1) (_ : Fin 1) => (0:ℝ)) 1 1 0 1 true
            (fun _ => 0) (fun _ => 0) (fun _ => (id, id))).2,
         Option.some
           ((sgd_entropic_regularization (fun (_ : Fin 1) (_ : Fin 1) => (0:ℝ)) 1 1 0 1 true
              (fun _ => 0) (fun _ => 0) (fun _ => (id, id))).1,
            (sgd_entropic_regularization (fun (_ : Fin 1) (_ : Fin 1) => (0:ℝ)) 1 1 0 1 true
              (fun _ => 0) (fun _ => 0) (fun _ => (id, id))).2)) :=
  (orchestrators_plan_reconstruction (fun _ : Fin 1 => (1:ℝ)) (fun _ : Fin 1 => (1:ℝ))
    (fun _ _ => 0) 1 [] Option.none true "sag" 1 0 1 (fun _ => 0) (fun _ => 0)
    (fun _ => (id, id))).2.2.2

lemma sagStep_sums_zero {ns nt : ℕ} (a : Fin ns → ℝ) (b : Fin nt → ℝ)
    (M : Fin ns → Fin nt → ℝ) (reg lr : ℝ)
    (hb : ∀ j, 0 ≤ b j) (hb1 : ∑ j, b j = 1)
    (s : SagState ns nt) (i : Fin ns)
    (h1 : ∑ j, s.cur_beta j = 0)
    (h2 : ∀ i', ∑ j, s.stored_gradient i' j = 0)
    (h3 : ∑ j, s.sum_stored_gradient j = 0) :
    (∑ j, (sagStep a b M reg lr s i).cur_beta j = 0)
    ∧ (∀ i', ∑ j, (sagStep a b M reg lr s i).stored_gradient i' j = 0)
    ∧ ∑ j, (sagStep a b M reg lr s i).sum_stored_gradient j = 0 := by
  have hg : ∑ j, a i * coordinate_grad_semi_dual b M reg s.cur_beta i j = 0 := by
    rw [← Finset.mul_sum, coordinate_grad_sum_zero b M reg s.cur_beta i hb hb1, mul_zero]
  have hsum : ∑ j, (s.sum_stored_gradient j
      + (a i * coordinate_grad_semi_dual b M reg s.cur_beta i j
          - s.stored_gradient i j)) = 0 := by
    rw [Finset.sum_add_distrib, Finset.sum_sub_distrib, hg, h3, h2 i]
    ring
  refine ⟨?_, ?_, hsum⟩
  · show ∑ j, (s.cur_beta j + lr * (1 / (ns : ℝ))
        * (s.sum_stored_gradient j
            + (a i * coordinate_grad_semi_dual b M reg s.cur_beta i j
                - s.stored_gradient i j))) = 0
    rw [Finset.sum_add_distrib, h1, ← Finset.mul_sum, hsum]
    ring
  · intro i'
    show ∑ j, Function.update s.stored_gradient i
        (fun j => a i * coordinate_grad_semi_dual b M reg s.cur_beta i j) i' j = 0
    by_cases hii : i' = i
    · subst hii
      simp only [Function.update_same]
      exact hg
    · simp only [Function.update_noteq hii]
      exact h2 i'

lemma asgdLoop_sums_zero {ns nt : ℕ} (b : Fin nt → ℝ) (M : Fin ns → Fin nt → ℝ)
    (reg lr : ℝ) (hb : ∀ j, 0 ≤ b j) (hb1 : ∑ j, b j = 1) :
    ∀ (samples : List (Fin ns)) (k : ℕ) (st : (Fin nt → ℝ) × (Fin nt → ℝ)),
      ∑ j, st.1 j = 0 → ∑ j, st.2 j = 0 →
      (∑ j, (asgdLoop b M reg lr k samples st).1 j = 0)
      ∧ ∑ j, (asgdLoop b M reg lr k samples st).2 j = 0
  | [], _, _, h1, h2 => ⟨h1, h2⟩
  | i :: rest, k, st, h1, h2 => by
    have hcur : ∑ j, (st.1 j
        + lr / Real.sqrt (k : ℝ) * coordinate_grad_semi_dual b M reg st.1 i j) = 0 := by
      rw [Finset.sum_add_distrib, h1, ← Finset.mul_sum,
        coordinate_grad_sum_zero b M reg st.1 i hb hb1]
      ring
    have have2 : ∑ j, (1 / (k : ℝ)
          * (st.1 j + lr / Real.sqrt (k : ℝ)
              * coordinate_grad_semi_dual b M reg st.1 i j)
        + (1 - 1 / (k : ℝ)) * st.2 j) = 0 := by
      rw [Finset.sum_add_distrib, ← Finset.mul_sum, ← Finset.mul_sum, hcur, h2]
      ring
    exact asgdLoop_sums_zero b M reg lr hb hb1 rest (k + 1) _ hcur have2

/-- C10: in exact arithmetic, if `b` is non-negative and sums to 1 (hence every
normalizer is positive), each coordinate gradient sums to 0, and consequently,
for every sample sequence and learning rate, the dual vectors returned by the
SAG and ASGD semi-dual solvers have entries summing to 0. -/
theorem semi_dual_duals_sum_zero {ns nt : ℕ} [NeZero ns] (a : Fin ns → ℝ)
    (b : Fin nt → ℝ) (M : Fin ns → Fin nt → ℝ) (reg : ℝ)
    (hb : ∀ j, 0 ≤ b j) (hb1 : ∑ j, b j = 1) :
    (∀ (beta : Fin nt → ℝ) (i : Fin ns),
        ∑ j, coordinate_grad_semi_dual b M reg beta i j = 0)
    ∧ (∀ (samples : List (Fin ns)) (lr : Option ℝ),
        ∑ j, sag_entropic_transport a b M reg samples lr j = 0)
    ∧ (∀ (samples : List (Fin ns)) (lr : Option ℝ),
        ∑ j, averaged_sgd_entropic_transport a b M reg samples lr j = 0) := by
  refine ⟨fun beta i => coordinate_grad_sum_zero b M reg beta i hb hb1,
    fun samples lr => ?_, fun samples lr => ?_⟩
  · have hinv := foldl_invariant
      (fun s : SagState ns nt => (∑ j, s.cur_beta j = 0)
        ∧ (∀ i', ∑ j, s.stored_gradient i' j = 0)
        ∧ ∑ j, s.sum_stored_gradient j = 0)
      (sagStep a b M reg (lr.getD (default_lr a reg)))
      (fun s i hs => sagStep_sums_zero a b M reg (lr.getD (default_lr a reg))
        hb hb1 s i hs.1 hs.2.1 hs.2.2)
      samples (sagInit ns nt) ⟨by simp [sagInit], fun i' => by simp [sagInit], by simp [sagInit]⟩
    exact hinv.1
  · exact (asgdLoop_sums_zero b M reg (lr.getD (default_lr a reg)) hb hb1 samples 1
      (fun _ => 0, fun _ => 0) (by simp) (by simp)).2

/-- Witness for C10 at `ns = nt = 1`, `a = b = [1]`, one SAG iteration. -/
theorem semi_dual_duals_sum_zero_witness :
    (∀ j : Fin 1, (0:ℝ) ≤ (fun _ : Fin 1 => (1:ℝ)) j)
    ∧ (∑ j : Fin 1, (fun _ : Fin 1 => (1:ℝ)) j = 1)
    ∧ ∑ j : Fin 1, sag_entropic_transport (fun _ : Fin 1 => (1:ℝ))
        (fun _ : Fin 1 => (1:ℝ)) (fun _ _ => 0) 1 [(0 : Fin 1)] Option.none j = 0 := by
  have hb : ∀ j : Fin 1, (0:ℝ) ≤ (fun _ : Fin 1 => (1:ℝ)) j := fun _ => zero_le_one
  have hb1 : ∑ j : Fin 1, (fun _ : Fin 1 => (1:ℝ)) j = 1 := by simp
  exact ⟨hb, hb1,
    (semi_dual_duals_sum_zero (fun _ : Fin 1 => (1:ℝ)) (fun _ : Fin 1 => (1:ℝ))
      (fun _ _ => 0) 1 hb hb1).2.1 [(0 : Fin 1)] Option.none⟩

end Stochastic
